import Mathlib

/-!
Verification development for the subsynth repository.

Part 1: a shallow embedding of the push-based signal graph of `src/signal.rs`.
A graph is a list of nodes created in order; node `i`'s parents are nodes with
smaller indices (in the source, a derived signal can only attach to signals that
already exist).  The state holds each node's `Option` value (the
`value: Arc<Mutex<Option<T>>>` of `SignalBase`), plus a ghost boolean per node
recording whether any parent's value has strictly changed since the node was
created (this instruments "the parent notified us at least once"; it never
influences the computed values).

`setSig` embeds `SignalBase::set`: if the new value equals the current one it
is a no-op (dedup); otherwise the value is stored and every subscriber is run
in subscription order.  Subscribers of node `n` are exactly the update closures
installed by `Continuous::new1` / `Continuous::new2` for the children of `n`,
in creation order, one occurrence per parent slot equal to `n` (matching the
one or two `attach` calls in the source).  `updSig` embeds those closures:
read the parent values, and if all required parents have values, `set` the
child to the combining function's result.  Recursion is fuel-indexed; a fuel
of `g.length + 1` is always sufficient because every child has a strictly
larger index than its parents.
-/

namespace SubSynth

/-- A node of the signal graph: a `Discrete` source, or a `Continuous` node
built by `Continuous::new1` (hold / lift1 / map) or `Continuous::new2` (lift2). -/
inductive SigNode (V : Type) where
  | source : SigNode V
  | unary (p : Nat) (f : V → V) : SigNode V
  | binary (p q : Nat) (f : V → V → V) : SigNode V

/-- A signal graph: the nodes in creation order. -/
abbrev SigGraph (V : Type) := List (SigNode V)

/-- The dynamic state: per node, the current `Option` value, and the ghost flag
"some parent's value strictly changed since this node was created". -/
structure SigState (V : Type) where
  val : List (Option V)
  trig : List Bool

/-- The list of parent indices of a node (one entry per parent slot). -/
def SigNode.parents {V : Type} : SigNode V → List Nat
  | .source => []
  | .unary p _ => [p]
  | .binary p q _ => [p, q]

/-- Whether a node is a `Discrete` source. -/
def SigNode.isSource {V : Type} : SigNode V → Bool
  | .source => true
  | _ => false

/-- The node at index `i` (out-of-range defaults to a source, which has no
constraints). -/
def nodeAt {V : Type} (g : SigGraph V) (i : Nat) : SigNode V := g.getD i .source

/-- The current value of node `i` (`SignalBase::get`). -/
def getv {V : Type} (s : SigState V) (i : Nat) : Option V := s.val.getD i none

/-- The ghost "a parent changed since creation" flag of node `i`. -/
def trigOf {V : Type} (s : SigState V) (i : Nat) : Bool := s.trig.getD i false

/-- The subscribers of node `n`: every node `m` of the graph contributes one
occurrence per parent slot equal to `n`, in index (= attachment) order. -/
def childrenFrom {V : Type} (g : SigGraph V) (n : Nat) : List Nat :=
  (List.range g.length).flatMap
    (fun m => ((nodeAt g m).parents.filter (fun p => p = n)).map (fun _ => m))

/-- Mark the ghost flag of every node in `ms`. -/
def markList (trig : List Bool) (ms : List Nat) : List Bool :=
  ms.foldl (fun t m => t.set m true) trig

mutual

/-- `SignalBase::set` on node `n` with value `v`: no-op if the value is
unchanged; otherwise store it and notify every subscriber in order. -/
def setSig {V : Type} [DecidableEq V] (g : SigGraph V) (fuel n : Nat) (v : V)
    (s : SigState V) : SigState V :=
  match fuel with
  | 0 => s
  | fuel' + 1 =>
    if getv s n = some v then s
    else
      notifySig g fuel' (childrenFrom g n)
        ⟨s.val.set n (some v), markList s.trig (childrenFrom g n)⟩
termination_by (fuel, 0)

/-- Run the subscriber callbacks of the pending list in order. -/
def notifySig {V : Type} [DecidableEq V] (g : SigGraph V) (fuel : Nat)
    (todo : List Nat) (s : SigState V) : SigState V :=
  match todo with
  | [] => s
  | m :: rest => notifySig g fuel rest (updSig g fuel m s)
termination_by (fuel, todo.length + 2)

/-- The update closure installed by `Continuous::new1` / `new2` for node `m`:
read the parents, and if all required parents have values, set `m` to the
combining function's result. -/
def updSig {V : Type} [DecidableEq V] (g : SigGraph V) (fuel m : Nat)
    (s : SigState V) : SigState V :=
  match nodeAt g m with
  | .source => s
  | .unary p f =>
    match getv s p with
    | some a => setSig g fuel m (f a) s
    | none => s
  | .binary p q f =>
    match getv s p, getv s q with
    | some a, some b => setSig g fuel m (f a b) s
    | _, _ => s
termination_by (fuel, 1)

end

/-- `Discrete::push`: a `set` with always-sufficient fuel. -/
def pushSig {V : Type} [DecidableEq V] (g : SigGraph V) (n : Nat) (v : V)
    (s : SigState V) : SigState V :=
  setSig g (g.length + 1) n v s

/-- The operations a client can perform on the graph: create a `Discrete`,
create a `Continuous` via `hold`/`lift1`/`map` (`newUnary`) or `lift2`
(`newBinary`), or push a value into a `Discrete`. -/
inductive SigCmd (V : Type) where
  | newSource : SigCmd V
  | newUnary (p : Nat) (f : V → V) : SigCmd V
  | newBinary (p q : Nat) (f : V → V → V) : SigCmd V
  | push (n : Nat) (v : V) : SigCmd V

/-- How a command extends the graph (pushes leave it unchanged; creations
append a node whose value starts as `None` and whose ghost flag starts false). -/
def cmdGraph {V : Type} (g : SigGraph V) : SigCmd V → SigGraph V
  | .newSource => g ++ [.source]
  | .newUnary p f => g ++ [.unary p f]
  | .newBinary p q f => g ++ [.binary p q f]
  | .push _ _ => g

/-- Apply one command to a graph/state pair. -/
def applyCmd {V : Type} [DecidableEq V] (gs : SigGraph V × SigState V)
    (c : SigCmd V) : SigGraph V × SigState V :=
  match c with
  | .newSource => (gs.1 ++ [.source], ⟨gs.2.val ++ [none], gs.2.trig ++ [false]⟩)
  | .newUnary p f => (gs.1 ++ [.unary p f], ⟨gs.2.val ++ [none], gs.2.trig ++ [false]⟩)
  | .newBinary p q f => (gs.1 ++ [.binary p q f], ⟨gs.2.val ++ [none], gs.2.trig ++ [false]⟩)
  | .push n v => (gs.1, pushSig gs.1 n v gs.2)

/-- Run a command list from a given graph/state pair. -/
def execFrom {V : Type} [DecidableEq V] (gs : SigGraph V × SigState V)
    (cs : List (SigCmd V)) : SigGraph V × SigState V :=
  cs.foldl applyCmd gs

/-- Run a command list from the empty graph. -/
def execCmds {V : Type} [DecidableEq V] (cs : List (SigCmd V)) :
    SigGraph V × SigState V :=
  execFrom (([] : SigGraph V), ⟨[], []⟩) cs

/-- Validity of one command against the current graph: creations may only name
already-existing parents (the source can only attach to existing signals), and
pushes may only target `Discrete` sources (only `Discrete` has `push`). -/
def cmdOK {V : Type} (g : SigGraph V) : SigCmd V → Bool
  | .newSource => true
  | .newUnary p _ => decide (p < g.length)
  | .newBinary p q _ => decide (p < g.length) && decide (q < g.length)
  | .push n _ => decide (n < g.length) && (nodeAt g n).isSource

/-- Validity of a command list against a starting graph. -/
def progOK {V : Type} (g : SigGraph V) : List (SigCmd V) → Bool
  | [] => true
  | c :: cs => cmdOK g c && progOK (cmdGraph g c) cs

/-- Structural well-formedness: every parent index is smaller than its child's
index (guaranteed by construction order in the source). -/
def graphWF {V : Type} (g : SigGraph V) : Prop :=
  ∀ m, m < g.length → ∀ p ∈ (nodeAt g m).parents, p < m

/-- State shape: the value and ghost lists have one entry per node. -/
def stOK {V : Type} (g : SigGraph V) (s : SigState V) : Prop :=
  s.val.length = g.length ∧ s.trig.length = g.length

/-- Reachability along parent-to-child (i.e. notification) edges. -/
inductive ReachSig {V : Type} (g : SigGraph V) : Nat → Nat → Prop where
  | refl (n : Nat) : ReachSig g n n
  | head {n m d : Nat} : m ∈ childrenFrom g n → ReachSig g m d → ReachSig g n d

section ListHelpers

variable {α : Type}

theorem ldGetD_set_self {l : List α} {n : Nat} {x dflt : α} (h : n < l.length) :
    (l.set n x).getD n dflt = x := by
  simp [List.getD_eq_getElem?_getD, List.getElem?_set_self h]

theorem ldGetD_set_ne {l : List α} {n d : Nat} {x dflt : α} (h : d ≠ n) :
    (l.set n x).getD d dflt = l.getD d dflt := by
  simp [List.getD_eq_getElem?_getD, List.getElem?_set_ne (Ne.symm h)]

theorem ldGetD_append_lt {l : List α} {x dflt : α} {d : Nat} (h : d < l.length) :
    (l ++ [x]).getD d dflt = l.getD d dflt := by
  simp [List.getD_eq_getElem?_getD, List.getElem?_append_left h]

theorem ldGetD_append_self {l : List α} {x dflt : α} :
    (l ++ [x]).getD l.length dflt = x := by
  simp [List.getD_eq_getElem?_getD, List.getElem?_concat_length]

theorem ldGetD_append_gt {l : List α} {x dflt : α} {d : Nat} (h : l.length < d) :
    (l ++ [x]).getD d dflt = dflt := by
  have h2 : (l ++ [x]).length ≤ d := by simp; omega
  simp [List.getD_eq_getElem?_getD, List.getElem?_eq_none h2]

end ListHelpers

section GraphLemmas

variable {V : Type}

theorem mem_childrenFrom {g : SigGraph V} {n m : Nat} :
    m ∈ childrenFrom g n ↔ m < g.length ∧ n ∈ (nodeAt g m).parents := by
  simp only [childrenFrom, List.mem_flatMap, List.mem_map, List.mem_filter,
    List.mem_range]
  constructor
  · rintro ⟨m', hm', ⟨p, ⟨hp, hpn⟩, rfl⟩⟩
    simp only [decide_eq_true_eq] at hpn
    exact ⟨hm', hpn ▸ hp⟩
  · rintro ⟨hm, hn⟩
    exact ⟨m, hm, ⟨n, ⟨hn, by simp⟩, rfl⟩⟩

theorem child_gt {g : SigGraph V} (hwf : graphWF g) {n m : Nat}
    (h : m ∈ childrenFrom g n) : n < m := by
  rcases mem_childrenFrom.1 h with ⟨hm, hn⟩
  exact hwf m hm n hn

theorem child_lt_length {g : SigGraph V} {n m : Nat}
    (h : m ∈ childrenFrom g n) : m < g.length := (mem_childrenFrom.1 h).1

theorem not_self_mem_childrenFrom {g : SigGraph V} (hwf : graphWF g) {n : Nat} :
    n ∉ childrenFrom g n := fun h => absurd (child_gt hwf h) (lt_irrefl n)

theorem ReachSig.le {g : SigGraph V} (hwf : graphWF g) {a b : Nat}
    (h : ReachSig g a b) : a ≤ b := by
  induction h with
  | refl => exact le_refl _
  | head hc _ ih => exact le_of_lt (lt_of_lt_of_le (child_gt hwf hc) ih)

theorem reach_of_child {g : SigGraph V} {n m : Nat} (h : m ∈ childrenFrom g n) :
    ReachSig g n m := ReachSig.head h (ReachSig.refl m)

theorem markList_length {trig : List Bool} {ms : List Nat} :
    (markList trig ms).length = trig.length := by
  induction ms generalizing trig with
  | nil => rfl
  | cons m rest ih => simp [markList] at ih ⊢; rw [ih, List.length_set]

theorem markList_getD_notMem {trig : List Bool} {ms : List Nat} {d : Nat}
    (h : d ∉ ms) : (markList trig ms).getD d false = trig.getD d false := by
  induction ms generalizing trig with
  | nil => rfl
  | cons m rest ih =>
    simp only [List.mem_cons, not_or] at h
    simp only [markList, List.foldl_cons] at ih ⊢
    rw [ih h.2, ldGetD_set_ne h.1]

theorem markList_getD_monotone {trig : List Bool} {ms : List Nat} {d : Nat}
    (h : trig.getD d false = true) : (markList trig ms).getD d false = true := by
  induction ms generalizing trig with
  | nil => exact h
  | cons m rest ih =>
    simp only [markList, List.foldl_cons] at ih ⊢
    apply ih
    by_cases hd : d = m
    · subst hd
      by_cases hlen : d < trig.length
      · rw [ldGetD_set_self hlen]
      · rw [List.set_eq_of_length_le (Nat.le_of_not_lt hlen)]; exact h
    · rw [ldGetD_set_ne hd]; exact h

theorem markList_getD_mem {trig : List Bool} {ms : List Nat} {d : Nat}
    (h : d ∈ ms) (hlen : d < trig.length) :
    (markList trig ms).getD d false = true := by
  induction ms generalizing trig with
  | nil => cases h
  | cons m rest ih =>
    simp only [markList, List.foldl_cons] at ih ⊢
    rcases List.mem_cons.1 h with rfl | hmem
    · exact markList_getD_monotone (ldGetD_set_self hlen)
    · exact ih hmem (by rw [List.length_set]; exact hlen)

end GraphLemmas

section CascadeEquations

variable {V : Type} [DecidableEq V] {g : SigGraph V}

theorem setSig_zero {n : Nat} {v : V} {s : SigState V} : setSig g 0 n v s = s := by
  rw [setSig]

theorem setSig_succ {fuel n : Nat} {v : V} {s : SigState V} :
    setSig g (fuel + 1) n v s =
      if getv s n = some v then s
      else notifySig g fuel (childrenFrom g n)
        ⟨s.val.set n (some v), markList s.trig (childrenFrom g n)⟩ := by
  rw [setSig]

theorem notifySig_nil {fuel : Nat} {s : SigState V} : notifySig g fuel [] s = s := by
  rw [notifySig]

theorem notifySig_cons {fuel m : Nat} {rest : List Nat} {s : SigState V} :
    notifySig g fuel (m :: rest) s = notifySig g fuel rest (updSig g fuel m s) := by
  rw [notifySig]

theorem updSig_eq {fuel m : Nat} {s : SigState V} :
    updSig g fuel m s =
      match nodeAt g m with
      | .source => s
      | .unary p f =>
        match getv s p with
        | some a => setSig g fuel m (f a) s
        | none => s
      | .binary p q f =>
        match getv s p, getv s q with
        | some a, some b => setSig g fuel m (f a b) s
        | _, _ => s := by
  rw [updSig]

end CascadeEquations

section CascadeLemmas

variable {V : Type}

/-- Bookkeeping facts about one cascade step: lengths are preserved; nodes not
reachable from the modified region are untouched; values never disappear and
ghost flags are never cleared. -/
def tame (s s' : SigState V) (excl : Nat → Prop) : Prop :=
  s'.val.length = s.val.length ∧ s'.trig.length = s.trig.length ∧
  ∀ d, (¬ excl d → getv s' d = getv s d ∧ trigOf s' d = trigOf s d) ∧
       ((getv s d).isSome = true → (getv s' d).isSome = true) ∧
       (trigOf s d = true → trigOf s' d = true)

theorem tame_refl {s : SigState V} {excl : Nat → Prop} : tame s s excl :=
  ⟨rfl, rfl, fun _ => ⟨fun _ => ⟨rfl, rfl⟩, id, id⟩⟩

theorem tame_comp {s s' s'' : SigState V} {e1 e2 : Nat → Prop}
    (h1 : tame s s' e1) (h2 : tame s' s'' e2) :
    tame s s'' (fun d => e1 d ∨ e2 d) := by
  obtain ⟨hl1, ht1, h1⟩ := h1
  obtain ⟨hl2, ht2, h2⟩ := h2
  refine ⟨hl2.trans hl1, ht2.trans ht1, fun d => ⟨?_, ?_, ?_⟩⟩
  · intro hd
    have hd1 : ¬ e1 d := fun h => hd (Or.inl h)
    have hd2 : ¬ e2 d := fun h => hd (Or.inr h)
    obtain ⟨hv1, hg1⟩ := (h1 d).1 hd1
    obtain ⟨hv2, hg2⟩ := (h2 d).1 hd2
    exact ⟨hv2.trans hv1, hg2.trans hg1⟩
  · exact fun h => (h2 d).2.1 ((h1 d).2.1 h)
  · exact fun h => (h2 d).2.2 ((h1 d).2.2 h)

theorem tame_mono_excl {s s' : SigState V} {e1 e2 : Nat → Prop}
    (he : ∀ d, e1 d → e2 d) (h : tame s s' e1) : tame s s' e2 := by
  obtain ⟨hl, ht, h⟩ := h
  exact ⟨hl, ht, fun d =>
    ⟨fun hd => (h d).1 (fun h1 => hd (he d h1)), (h d).2.1, (h d).2.2⟩⟩

/-- The store-and-mark step that begins the changed branch of `setSig` is tame. -/
theorem tame_store_mark {g : SigGraph V} {s : SigState V} {n : Nat} {v : V} :
    tame s ⟨s.val.set n (some v), markList s.trig (childrenFrom g n)⟩ (ReachSig g n) := by
  refine ⟨by simp [List.length_set], by simp [markList_length], fun d => ⟨?_, ?_, ?_⟩⟩
  · intro hd
    have hdn : d ≠ n := by
      intro h; subst h; exact hd (ReachSig.refl d)
    have hdc : d ∉ childrenFrom g n := fun h => hd (reach_of_child h)
    exact ⟨ldGetD_set_ne hdn, markList_getD_notMem hdc⟩
  · intro h
    show ((s.val.set n (some v)).getD d none).isSome = true
    by_cases hdn : d = n
    · subst hdn
      by_cases hlen : d < s.val.length
      · rw [ldGetD_set_self hlen]; rfl
      · rw [List.set_eq_of_length_le (Nat.le_of_not_lt hlen)]; exact h
    · rw [ldGetD_set_ne hdn]; exact h
  · intro h
    exact markList_getD_monotone h

theorem sigTame {V : Type} [DecidableEq V] (g : SigGraph V) : ∀ fuel : Nat,
    (∀ n v (s : SigState V), tame s (setSig g fuel n v s) (ReachSig g n)) ∧
    (∀ m (s : SigState V), tame s (updSig g fuel m s) (ReachSig g m)) ∧
    (∀ (todo : List Nat) (s : SigState V),
      tame s (notifySig g fuel todo s) (fun d => ∃ m ∈ todo, ReachSig g m d)) := by
  intro fuel
  induction fuel with
  | zero =>
    have hset : ∀ n v (s : SigState V), tame s (setSig g 0 n v s) (ReachSig g n) := by
      intro n v s; rw [setSig_zero]; exact tame_refl
    have hupd : ∀ m (s : SigState V), tame s (updSig g 0 m s) (ReachSig g m) := by
      intro m s
      rw [updSig_eq]
      split
      · exact tame_refl
      · split
        · rw [setSig_zero]; exact tame_refl
        · exact tame_refl
      · split
        · rw [setSig_zero]; exact tame_refl
        · exact tame_refl
    refine ⟨hset, hupd, ?_⟩
    intro todo
    induction todo with
    | nil => intro s; rw [notifySig_nil]; exact tame_refl
    | cons m rest ih =>
      intro s
      rw [notifySig_cons]
      have h1 := hupd m s
      have h2 := ih (updSig g 0 m s)
      refine tame_mono_excl ?_ (tame_comp h1 h2)
      rintro d (hd | ⟨m', hm', hr⟩)
      · exact ⟨m, List.mem_cons_self m rest, hd⟩
      · exact ⟨m', List.mem_cons_of_mem m hm', hr⟩
  | succ fuel ih =>
    have hset : ∀ n v (s : SigState V), tame s (setSig g (fuel + 1) n v s) (ReachSig g n) := by
      intro n v s
      rw [setSig_succ]
      by_cases hd : getv s n = some v
      · rw [if_pos hd]; exact tame_refl
      · rw [if_neg hd]
        have h1 : tame s ⟨s.val.set n (some v), markList s.trig (childrenFrom g n)⟩
            (ReachSig g n) := tame_store_mark
        have h2 := ih.2.2 (childrenFrom g n)
          ⟨s.val.set n (some v), markList s.trig (childrenFrom g n)⟩
        refine tame_mono_excl ?_ (tame_comp h1 h2)
        rintro d (hd1 | ⟨m, hm, hr⟩)
        · exact hd1
        · exact ReachSig.head hm hr
    have hupd : ∀ m (s : SigState V), tame s (updSig g (fuel + 1) m s) (ReachSig g m) := by
      intro m s
      rw [updSig_eq]
      split
      · exact tame_refl
      · split
        · exact hset m _ s
        · exact tame_refl
      · split
        · exact hset m _ s
        · exact tame_refl
    refine ⟨hset, hupd, ?_⟩
    intro todo
    induction todo with
    | nil => intro s; rw [notifySig_nil]; exact tame_refl
    | cons m rest ihr =>
      intro s
      rw [notifySig_cons]
      have h1 := hupd m s
      have h2 := ihr (updSig g (fuel + 1) m s)
      refine tame_mono_excl ?_ (tame_comp h1 h2)
      rintro d (hd | ⟨m', hm', hr⟩)
      · exact ⟨m, List.mem_cons_self m rest, hd⟩
      · exact ⟨m', List.mem_cons_of_mem m hm', hr⟩

end CascadeLemmas

section VipLemmas

variable {V : Type}

/-- "A node with a value has all required parents valued": this holds at every
quiescent point because an update closure only ever stores a value computed
from fully-valued parents, and values never disappear. -/
def vip (g : SigGraph V) (s : SigState V) : Prop :=
  ∀ m, (getv s m).isSome = true → ∀ p ∈ (nodeAt g m).parents, (getv s p).isSome = true

theorem vip_store_mark {g : SigGraph V} {s : SigState V} {n : Nat} {v : V}
    {ms : List Nat} (hv : vip g s)
    (hp : ∀ p ∈ (nodeAt g n).parents, (getv s p).isSome = true) :
    vip g ⟨s.val.set n (some v), markList s.trig ms⟩ := by
  by_cases hn : n < s.val.length
  · intro m hm p hpp
    show ((s.val.set n (some v)).getD p none).isSome = true
    by_cases hpn : p = n
    · subst hpn; rw [ldGetD_set_self hn]; rfl
    · rw [ldGetD_set_ne hpn]
      by_cases hmn : m = n
      · subst hmn; exact hp p hpp
      · have hm' : (getv s m).isSome = true := by
          have : getv ⟨s.val.set n (some v), markList s.trig ms⟩ m = getv s m :=
            ldGetD_set_ne hmn
          rw [this] at hm; exact hm
        exact hv m hm' p hpp
  · intro m hm p hpp
    have hval : s.val.set n (some v) = s.val :=
      List.set_eq_of_length_le (Nat.le_of_not_lt hn)
    show ((s.val.set n (some v)).getD p none).isSome = true
    rw [hval]
    have hm' : (getv s m).isSome = true := by
      have : getv ⟨s.val.set n (some v), markList s.trig ms⟩ m = getv s m := by
        show (s.val.set n (some v)).getD m none = s.val.getD m none
        rw [hval]
      rw [this] at hm; exact hm
    exact hv m hm' p hpp

theorem sigVip {V : Type} [DecidableEq V] (g : SigGraph V) : ∀ fuel : Nat,
    (∀ n v (s : SigState V), vip g s →
      (∀ p ∈ (nodeAt g n).parents, (getv s p).isSome = true) →
      vip g (setSig g fuel n v s)) ∧
    (∀ m (s : SigState V), vip g s → vip g (updSig g fuel m s)) ∧
    (∀ (todo : List Nat) (s : SigState V), vip g s →
      vip g (notifySig g fuel todo s)) := by
  intro fuel
  induction fuel with
  | zero =>
    have hset : ∀ n v (s : SigState V), vip g s →
        (∀ p ∈ (nodeAt g n).parents, (getv s p).isSome = true) →
        vip g (setSig g 0 n v s) := by
      intro n v s hv _; rw [setSig_zero]; exact hv
    have hupd : ∀ m (s : SigState V), vip g s → vip g (updSig g 0 m s) := by
      intro m s hv
      rw [updSig_eq]
      split
      · exact hv
      · split
        · rw [setSig_zero]; exact hv
        · exact hv
      · split
        · rw [setSig_zero]; exact hv
        · exact hv
    refine ⟨hset, hupd, ?_⟩
    intro todo
    induction todo with
    | nil => intro s hv; rw [notifySig_nil]; exact hv
    | cons m rest ih =>
      intro s hv
      rw [notifySig_cons]
      exact ih _ (hupd m s hv)
  | succ fuel ih =>
    have hset : ∀ n v (s : SigState V), vip g s →
        (∀ p ∈ (nodeAt g n).parents, (getv s p).isSome = true) →
        vip g (setSig g (fuel + 1) n v s) := by
      intro n v s hv hp
      rw [setSig_succ]
      by_cases hd : getv s n = some v
      · rw [if_pos hd]; exact hv
      · rw [if_neg hd]
        exact ih.2.2 _ _ (vip_store_mark hv hp)
    have hupd : ∀ m (s : SigState V), vip g s → vip g (updSig g (fuel + 1) m s) := by
      intro m s hv
      rw [updSig_eq]
      split
      · exact hv
      · rename_i p f heq
        split
        · rename_i a ha
          apply hset m (f a) s hv
          intro p' hp'
          rw [heq] at hp'
          simp only [SigNode.parents, List.mem_singleton] at hp'
          subst hp'
          rw [ha]; rfl
        · exact hv
      · rename_i p q f heq
        split
        · rename_i a b ha hb
          apply hset m (f a b) s hv
          intro p' hp'
          rw [heq] at hp'
          simp only [SigNode.parents, List.mem_cons, List.mem_singleton,
            List.not_mem_nil, or_false] at hp'
          rcases hp' with rfl | rfl
          · rw [ha]; rfl
          · rw [hb]; rfl
        · exact hv
    refine ⟨hset, hupd, ?_⟩
    intro todo
    induction todo with
    | nil => intro s hv; rw [notifySig_nil]; exact hv
    | cons m rest ih2 =>
      intro s hv
      rw [notifySig_cons]
      exact ih2 _ (hupd m s hv)

end VipLemmas

section SyncDefs

variable {V : Type}

/-- The value a node ought to hold at a quiescent point: a source holds
whatever it holds; a derived node holds the combining function applied to the
current parent values, provided some parent has strictly changed since the
node's creation (ghost flag) and all required parents have values; otherwise it
holds no value. -/
def expectedVal (g : SigGraph V) (s : SigState V) (d : Nat) : Option V :=
  match nodeAt g d with
  | .source => getv s d
  | .unary p f => if trigOf s d = true then (getv s p).map f else none
  | .binary p q f =>
    if trigOf s d = true then
      match getv s p, getv s q with
      | some a, some b => some (f a b)
      | _, _ => none
    else none

/-- Node `d` is in sync: its stored value is exactly its expected value. -/
def Sync (g : SigGraph V) (s : SigState V) (d : Nat) : Prop :=
  getv s d = expectedVal g s d

/-- The side condition under which `setSig` is invoked on a derived node by an
update closure: the node has been notified (ghost flag), and the pushed value
is the combining function applied to the current parent values. -/
def pushComputes (g : SigGraph V) (s : SigState V) (n : Nat) (v : V) : Prop :=
  match nodeAt g n with
  | .source => True
  | .unary p f => trigOf s n = true ∧ ∃ a, getv s p = some a ∧ v = f a
  | .binary p q f =>
    trigOf s n = true ∧ ∃ a b, getv s p = some a ∧ getv s q = some b ∧ v = f a b

theorem sync_of_source {g : SigGraph V} {s : SigState V} {d : Nat}
    (h : nodeAt g d = .source) : Sync g s d := by
  unfold Sync expectedVal
  rw [h]

theorem nodeAt_lt_length_of_ne_source {g : SigGraph V} {d : Nat}
    (h : nodeAt g d ≠ .source) : d < g.length := by
  by_contra hd
  exact h (by unfold nodeAt; rw [List.getD_eq_getElem?_getD,
    List.getElem?_eq_none (Nat.le_of_not_lt hd)]; rfl)

theorem expectedVal_congr {g : SigGraph V} {s s' : SigState V} {d : Nat}
    (hval : getv s' d = getv s d) (htrig : trigOf s' d = trigOf s d)
    (hpar : ∀ p ∈ (nodeAt g d).parents, getv s' p = getv s p) :
    expectedVal g s' d = expectedVal g s d := by
  unfold expectedVal
  rcases hnode : nodeAt g d with _ | ⟨p, f⟩ | ⟨p, q, f⟩
  · exact hval
  · have hp : getv s' p = getv s p := by
      apply hpar; rw [hnode]; simp [SigNode.parents]
    show (if trigOf s' d = true then (getv s' p).map f else none) =
      (if trigOf s d = true then (getv s p).map f else none)
    rw [htrig, hp]
  · have hp : getv s' p = getv s p := by
      apply hpar; rw [hnode]; simp [SigNode.parents]
    have hq : getv s' q = getv s q := by
      apply hpar; rw [hnode]; simp [SigNode.parents]
    show (if trigOf s' d = true then
        (match getv s' p, getv s' q with
          | some a, some b => some (f a b)
          | _, _ => none)
      else none) =
      (if trigOf s d = true then
        (match getv s p, getv s q with
          | some a, some b => some (f a b)
          | _, _ => none)
      else none)
    rw [htrig, hp, hq]

theorem sync_transport {g : SigGraph V} {s s' : SigState V} {d : Nat}
    (hs : Sync g s d) (hval : getv s' d = getv s d)
    (htrig : trigOf s' d = trigOf s d)
    (hpar : ∀ p ∈ (nodeAt g d).parents, getv s' p = getv s p) :
    Sync g s' d := by
  unfold Sync
  rw [hval, expectedVal_congr hval htrig hpar]
  exact hs

/-- `pushComputes` implies that all parents of the target hold values. -/
theorem pushComputes_parents {g : SigGraph V} {s : SigState V} {n : Nat} {v : V}
    (h : pushComputes g s n v) :
    ∀ p ∈ (nodeAt g n).parents, (getv s p).isSome = true := by
  unfold pushComputes at h
  rcases hnode : nodeAt g n with _ | ⟨p, f⟩ | ⟨p, q, f⟩
  · intro p hp; cases hp
  · rw [hnode] at h
    have h' : trigOf s n = true ∧ ∃ a, getv s p = some a ∧ v = f a := h
    obtain ⟨_, a, ha, _⟩ := h'
    intro p' hp'
    simp only [SigNode.parents, List.mem_singleton] at hp'
    subst hp'; rw [ha]; rfl
  · rw [hnode] at h
    have h' : trigOf s n = true ∧
        ∃ a b, getv s p = some a ∧ getv s q = some b ∧ v = f a b := h
    obtain ⟨_, a, b, ha, hb, _⟩ := h'
    intro p' hp'
    simp only [SigNode.parents, List.mem_cons, List.mem_singleton,
      List.not_mem_nil, or_false] at hp'
    rcases hp' with rfl | rfl
    · rw [ha]; rfl
    · rw [hb]; rfl

end SyncDefs

/-- Main cascade lemma: a `set` with a correctly computed value, starting from
a state in which every node outside the excused set `E` (other than the target)
is in sync, leaves every node outside `E` in sync.  Stated simultaneously for
the three mutually recursive functions. -/
theorem sigSync {V : Type} [DecidableEq V] {g : SigGraph V} (hwf : graphWF g) :
    ∀ fuel : Nat,
    (∀ n v (s : SigState V) (E : Nat → Prop), g.length - n < fuel → n < g.length →
      stOK g s → vip g s → (∀ d, d ≠ n → ¬ E d → Sync g s d) →
      pushComputes g s n v →
      ∀ d, ¬ E d → Sync g (setSig g fuel n v s) d) ∧
    (∀ m (s : SigState V) (E : Nat → Prop), g.length - m < fuel → m < g.length →
      stOK g s → vip g s → (∀ d, d ≠ m → ¬ E d → Sync g s d) →
      ((nodeAt g m).isSource = false → trigOf s m = true) →
      ∀ d, ¬ E d → Sync g (updSig g fuel m s) d) ∧
    (∀ (todo : List Nat) (s : SigState V) (E : Nat → Prop),
      (∀ m ∈ todo, g.length - m < fuel ∧ m < g.length ∧
        ((nodeAt g m).isSource = false → trigOf s m = true)) →
      stOK g s → vip g s → (∀ d, d ∉ todo → ¬ E d → Sync g s d) →
      ∀ d, ¬ E d → Sync g (notifySig g fuel todo s) d) := by
  intro fuel
  induction fuel with
  | zero =>
    refine ⟨?_, ?_, ?_⟩
    · intro n v s E hfuel _ _ _ _ _ _ _
      exact absurd hfuel (by omega)
    · intro m s E hfuel _ _ _ _ _ _ _
      exact absurd hfuel (by omega)
    · intro todo s E hmem _ _ H1 d hdE
      cases todo with
      | nil => rw [notifySig_nil]; exact H1 d (List.not_mem_nil d) hdE
      | cons m rest => exact absurd (hmem m (List.mem_cons_self m rest)).1 (by omega)
  | succ fuel ih =>
    have hset : ∀ n v (s : SigState V) (E : Nat → Prop),
        g.length - n < fuel + 1 → n < g.length → stOK g s → vip g s →
        (∀ d, d ≠ n → ¬ E d → Sync g s d) → pushComputes g s n v →
        ∀ d, ¬ E d → Sync g (setSig g (fuel + 1) n v s) d := by
      intro n v s E hfuel hn hst hv H1 hpc d hdE
      rw [setSig_succ]
      by_cases hcur : getv s n = some v
      · rw [if_pos hcur]
        by_cases hdn : d = n
        · subst hdn
          unfold Sync expectedVal
          rcases hnode : nodeAt g d with _ | ⟨p, f⟩ | ⟨p, q, f⟩
          · rfl
          · unfold pushComputes at hpc
            rw [hnode] at hpc
            have hpc' : trigOf s d = true ∧ ∃ a, getv s p = some a ∧ v = f a := hpc
            obtain ⟨ht, a, ha, rfl⟩ := hpc'
            show getv s d = if trigOf s d = true then (getv s p).map f else none
            rw [ht, ha, if_pos rfl]
            exact hcur
          · unfold pushComputes at hpc
            rw [hnode] at hpc
            have hpc' : trigOf s d = true ∧
                ∃ a b, getv s p = some a ∧ getv s q = some b ∧ v = f a b := hpc
            obtain ⟨ht, a, b, ha, hb, rfl⟩ := hpc'
            show getv s d = if trigOf s d = true then
                (match getv s p, getv s q with
                  | some a, some b => some (f a b)
                  | _, _ => none)
              else none
            rw [ht, ha, hb, if_pos rfl]
            exact hcur
        · exact H1 d hdn hdE
      · rw [if_neg hcur]
        have hn' : n < s.val.length := by rw [hst.1]; exact hn
        apply ih.2.2 (childrenFrom g n)
          ⟨s.val.set n (some v), markList s.trig (childrenFrom g n)⟩ E ?_ ?_ ?_ ?_ d hdE
        · intro m hm
          have h1 : n < m := child_gt hwf hm
          have h2 : m < g.length := child_lt_length hm
          refine ⟨by omega, h2, fun _ => ?_⟩
          show (markList s.trig (childrenFrom g n)).getD m false = true
          exact markList_getD_mem hm (by rw [hst.2]; exact h2)
        · exact ⟨by rw [List.length_set]; exact hst.1,
            by rw [markList_length]; exact hst.2⟩
        · exact vip_store_mark hv (pushComputes_parents hpc)
        · intro d' hd'c hd'E
          by_cases hd'n : d' = n
          · subst hd'n
            unfold Sync expectedVal
            rcases hnode : nodeAt g d' with _ | ⟨p, f⟩ | ⟨p, q, f⟩
            · rfl
            · unfold pushComputes at hpc
              rw [hnode] at hpc
              have hpc' : trigOf s d' = true ∧ ∃ a, getv s p = some a ∧ v = f a := hpc
              obtain ⟨ht, a, ha, rfl⟩ := hpc'
              have hpp : p < d' := hwf d' hn p (by rw [hnode]; simp [SigNode.parents])
              show (s.val.set d' (some (f a))).getD d' none =
                if (markList s.trig (childrenFrom g d')).getD d' false = true then
                  ((s.val.set d' (some (f a))).getD p none).map f else none
              rw [ldGetD_set_self hn', markList_getD_notMem (not_self_mem_childrenFrom hwf),
                ldGetD_set_ne (Nat.ne_of_lt hpp)]
              show some (f a) = if trigOf s d' = true then (getv s p).map f else none
              rw [ht, ha, if_pos rfl]
              rfl
            · unfold pushComputes at hpc
              rw [hnode] at hpc
              have hpc' : trigOf s d' = true ∧
                  ∃ a b, getv s p = some a ∧ getv s q = some b ∧ v = f a b := hpc
              obtain ⟨ht, a, b, ha, hb, rfl⟩ := hpc'
              have hpp : p < d' := hwf d' hn p (by rw [hnode]; simp [SigNode.parents])
              have hqq : q < d' := hwf d' hn q (by rw [hnode]; simp [SigNode.parents])
              show (s.val.set d' (some (f a b))).getD d' none =
                if (markList s.trig (childrenFrom g d')).getD d' false = true then
                  (match (s.val.set d' (some (f a b))).getD p none,
                      (s.val.set d' (some (f a b))).getD q none with
                    | some a, some b => some (f a b)
                    | _, _ => none)
                else none
              rw [ldGetD_set_self hn', markList_getD_notMem (not_self_mem_childrenFrom hwf),
                ldGetD_set_ne (Nat.ne_of_lt hpp),
                ldGetD_set_ne (Nat.ne_of_lt hqq)]
              show some (f a b) = if trigOf s d' = true then
                  (match getv s p, getv s q with
                    | some a, some b => some (f a b)
                    | _, _ => none)
                else none
              rw [ht, ha, hb, if_pos rfl]
          · apply sync_transport (H1 d' hd'n hd'E)
            · exact ldGetD_set_ne hd'n
            · exact markList_getD_notMem hd'c
            · intro p hp
              have hnsrc : nodeAt g d' ≠ .source := by
                intro hsrc; rw [hsrc] at hp; cases hp
              by_cases hpn : p = n
              · subst hpn
                exact absurd (mem_childrenFrom.2
                  ⟨nodeAt_lt_length_of_ne_source hnsrc, hp⟩) hd'c
              · exact ldGetD_set_ne hpn
    have hupd : ∀ m (s : SigState V) (E : Nat → Prop),
        g.length - m < fuel + 1 → m < g.length → stOK g s → vip g s →
        (∀ d, d ≠ m → ¬ E d → Sync g s d) →
        ((nodeAt g m).isSource = false → trigOf s m = true) →
        ∀ d, ¬ E d → Sync g (updSig g (fuel + 1) m s) d := by
      intro m s E hfuel hm hst hv H1 htrig d hdE
      rw [updSig_eq]
      split
      · rename_i heq
        by_cases hdm : d = m
        · subst hdm; exact sync_of_source heq
        · exact H1 d hdm hdE
      · rename_i p f heq
        split
        · rename_i a ha
          apply hset m (f a) s E hfuel hm hst hv H1 ?_ d hdE
          unfold pushComputes
          rw [heq]
          show trigOf s m = true ∧ ∃ a', getv s p = some a' ∧ f a = f a'
          exact ⟨htrig (by rw [heq]; rfl), a, ha, rfl⟩
        · rename_i hnone
          by_cases hdm : d = m
          · subst hdm
            have hval : getv s d = none := by
              cases hgm : getv s d with
              | none => rfl
              | some c =>
                have hps := hv d (by rw [hgm]; rfl) p (by rw [heq]; simp [SigNode.parents])
                rw [hnone] at hps
                cases hps
            unfold Sync expectedVal
            rw [heq]
            show getv s d = if trigOf s d = true then (getv s p).map f else none
            rw [hval, hnone]
            cases trigOf s d <;> simp
          · exact H1 d hdm hdE
      · rename_i p q f heq
        split
        · rename_i a b ha hb
          apply hset m (f a b) s E hfuel hm hst hv H1 ?_ d hdE
          unfold pushComputes
          rw [heq]
          show trigOf s m = true ∧
            ∃ a' b', getv s p = some a' ∧ getv s q = some b' ∧ f a b = f a' b'
          exact ⟨htrig (by rw [heq]; rfl), a, b, ha, hb, rfl⟩
        · rename_i x y hne
          by_cases hdm : d = m
          · subst hdm
            have hns : ¬((getv s p).isSome = true ∧ (getv s q).isSome = true) := by
              rintro ⟨hp1, hq1⟩
              cases hgp : getv s p with
              | none => rw [hgp] at hp1; cases hp1
              | some a =>
                cases hgq : getv s q with
                | none => rw [hgq] at hq1; cases hq1
                | some b => exact hne a b (by rw [← hgp]) (by rw [← hgq])
            have hval : getv s d = none := by
              cases hgm : getv s d with
              | none => rfl
              | some c =>
                refine absurd ⟨?_, ?_⟩ hns
                · exact hv d (by rw [hgm]; rfl) p (by rw [heq]; simp [SigNode.parents])
                · exact hv d (by rw [hgm]; rfl) q (by rw [heq]; simp [SigNode.parents])
            unfold Sync expectedVal
            rw [heq]
            show getv s d = if trigOf s d = true then
                (match getv s p, getv s q with
                  | some a, some b => some (f a b)
                  | _, _ => none)
              else none
            rw [hval]
            cases hgp : getv s p with
            | none => cases trigOf s d <;> simp
            | some a =>
              cases hgq : getv s q with
              | none => cases trigOf s d <;> simp
              | some b => exact absurd ⟨by rw [hgp]; rfl, by rw [hgq]; rfl⟩ hns
          · exact H1 d hdm hdE
    refine ⟨hset, hupd, ?_⟩
    intro todo
    induction todo with
    | nil =>
      intro s E _ _ _ H1 d hdE
      rw [notifySig_nil]
      exact H1 d (List.not_mem_nil d) hdE
    | cons m rest ihr =>
      intro s E hmem hst hv H1 d hdE
      rw [notifySig_cons]
      have hm' := hmem m (List.mem_cons_self m rest)
      have hupd_res : ∀ d', ¬ (E d' ∨ d' ∈ rest) →
          Sync g (updSig g (fuel + 1) m s) d' := by
        apply hupd m s (fun d' => E d' ∨ d' ∈ rest) hm'.1 hm'.2.1 hst hv ?_ hm'.2.2
        intro d' hdm hdE'
        have hE : ¬ E d' := fun h => hdE' (Or.inl h)
        have hr : d' ∉ rest := fun h => hdE' (Or.inr h)
        refine H1 d' ?_ hE
        intro hmem'
        rcases List.mem_cons.1 hmem' with rfl | hmm
        · exact hdm rfl
        · exact hr hmm
      have htame := (sigTame g (fuel + 1)).2.1 m s
      apply ihr (updSig g (fuel + 1) m s) E ?_ ?_ ?_ ?_ d hdE
      · intro m' hm'r
        have h0 := hmem m' (List.mem_cons_of_mem m hm'r)
        exact ⟨h0.1, h0.2.1, fun hsrc => (htame.2.2 m').2.2 (h0.2.2 hsrc)⟩
      · exact ⟨htame.1.trans hst.1, htame.2.1.trans hst.2⟩
      · exact (sigVip g (fuel + 1)).2.1 m s hv
      · intro d' hd'r hd'E
        exact hupd_res d' (by
          rintro (h | h)
          · exact hd'E h
          · exact hd'r h)

/-- The full quiescent-state invariant of an executing signal graph. -/
def invAll {V : Type} (g : SigGraph V) (s : SigState V) : Prop :=
  graphWF g ∧ stOK g s ∧ vip g s ∧ ∀ d, Sync g s d

section ExecInvariant

variable {V : Type}

theorem isSource_eq_source {x : SigNode V} (h : x.isSource = true) :
    x = .source := by
  cases x with
  | source => rfl
  | unary p f => cases h
  | binary p q f => cases h

theorem parents_of_source {x : SigNode V} (h : x = SigNode.source) :
    x.parents = [] := by rw [h]; rfl

theorem sync_append {g : SigGraph V} {s : SigState V} {x : SigNode V} {d : Nat}
    (hwf : graphWF g) (hst : stOK g s) (hd : d < g.length) (hsync : Sync g s d) :
    Sync (g ++ [x]) ⟨s.val ++ [none], s.trig ++ [false]⟩ d := by
  have hdv : d < s.val.length := by rw [hst.1]; exact hd
  have hdt : d < s.trig.length := by rw [hst.2]; exact hd
  have hval : getv ⟨s.val ++ [none], s.trig ++ [false]⟩ d = getv s d :=
    ldGetD_append_lt hdv
  have htrig : trigOf ⟨s.val ++ [none], s.trig ++ [false]⟩ d = trigOf s d :=
    ldGetD_append_lt hdt
  have hnode : nodeAt (g ++ [x]) d = nodeAt g d := ldGetD_append_lt hd
  unfold Sync expectedVal
  rw [hval, hnode]
  unfold Sync expectedVal at hsync
  rcases hn2 : nodeAt g d with _ | ⟨p, f⟩ | ⟨p, q, f⟩
  · rfl
  · rw [hn2] at hsync
    have hpd : p < d := hwf d hd p (by rw [hn2]; simp [SigNode.parents])
    have hp : getv ⟨s.val ++ [none], s.trig ++ [false]⟩ p = getv s p :=
      ldGetD_append_lt (by rw [hst.1]; omega)
    show getv s d = if trigOf ⟨s.val ++ [none], s.trig ++ [false]⟩ d = true then
        (getv ⟨s.val ++ [none], s.trig ++ [false]⟩ p).map f else none
    rw [htrig, hp]
    exact hsync
  · rw [hn2] at hsync
    have hpd : p < d := hwf d hd p (by rw [hn2]; simp [SigNode.parents])
    have hqd : q < d := hwf d hd q (by rw [hn2]; simp [SigNode.parents])
    have hp : getv ⟨s.val ++ [none], s.trig ++ [false]⟩ p = getv s p :=
      ldGetD_append_lt (by rw [hst.1]; omega)
    have hq : getv ⟨s.val ++ [none], s.trig ++ [false]⟩ q = getv s q :=
      ldGetD_append_lt (by rw [hst.1]; omega)
    show getv s d = if trigOf ⟨s.val ++ [none], s.trig ++ [false]⟩ d = true then
        (match getv ⟨s.val ++ [none], s.trig ++ [false]⟩ p,
            getv ⟨s.val ++ [none], s.trig ++ [false]⟩ q with
          | some a, some b => some (f a b)
          | _, _ => none)
      else none
    rw [htrig, hp, hq]
    exact hsync

theorem invAll_create {g : SigGraph V} {s : SigState V} {x : SigNode V}
    (hinv : invAll g s) (hp : ∀ p ∈ x.parents, p < g.length) :
    invAll (g ++ [x]) ⟨s.val ++ [none], s.trig ++ [false]⟩ := by
  obtain ⟨hwf, hst, hv, hsync⟩ := hinv
  refine ⟨?_, ?_, ?_, ?_⟩
  · intro m hm p hpp
    rw [List.length_append, List.length_singleton] at hm
    by_cases hmlen : m < g.length
    · have : nodeAt (g ++ [x]) m = nodeAt g m := ldGetD_append_lt hmlen
      rw [this] at hpp
      exact hwf m hmlen p hpp
    · have hmeq : m = g.length := by omega
      have hx2 : nodeAt (g ++ [x]) m = x := by
        show (g ++ [x]).getD m .source = x
        rw [hmeq]; exact ldGetD_append_self
      rw [hx2] at hpp
      have := hp p hpp
      omega
  · exact ⟨by simp [hst.1], by simp [hst.2]⟩
  · intro m hm p hpp
    by_cases hmlen : m < g.length
    · have hmv : getv ⟨s.val ++ [none], s.trig ++ [false]⟩ m = getv s m :=
        ldGetD_append_lt (by rw [hst.1]; exact hmlen)
      rw [hmv] at hm
      have hnm : nodeAt (g ++ [x]) m = nodeAt g m := ldGetD_append_lt hmlen
      rw [hnm] at hpp
      have hplen : p < g.length := by
        have := hwf m hmlen p hpp; omega
      have hpv : getv ⟨s.val ++ [none], s.trig ++ [false]⟩ p = getv s p :=
        ldGetD_append_lt (by rw [hst.1]; exact hplen)
      rw [hpv]
      exact hv m hm p hpp
    · exfalso
      by_cases hmeq : m = g.length
      · have : getv ⟨s.val ++ [none], s.trig ++ [false]⟩ m = none := by
          show (s.val ++ [none]).getD m none = none
          rw [hmeq, ← hst.1, ldGetD_append_self]
        rw [this] at hm
        cases hm
      · have : getv ⟨s.val ++ [none], s.trig ++ [false]⟩ m = none := by
          show (s.val ++ [none]).getD m none = none
          exact ldGetD_append_gt (by rw [hst.1]; omega)
        rw [this] at hm
        cases hm
  · intro d
    by_cases hdlen : d < g.length
    · exact sync_append hwf hst hdlen (hsync d)
    · by_cases hdeq : d = g.length
      · have hval : getv ⟨s.val ++ [none], s.trig ++ [false]⟩ d = none := by
          show (s.val ++ [none]).getD d none = none
          rw [hdeq, ← hst.1, ldGetD_append_self]
        have htrig : trigOf ⟨s.val ++ [none], s.trig ++ [false]⟩ d = false := by
          show (s.trig ++ [false]).getD d false = false
          rw [hdeq, ← hst.2, ldGetD_append_self]
        have hnode : nodeAt (g ++ [x]) d = x := by
          show (g ++ [x]).getD d .source = x
          rw [hdeq]; exact ldGetD_append_self
        unfold Sync expectedVal
        rw [hval, hnode]
        rcases hx : x with _ | ⟨p, f⟩ | ⟨p, q, f⟩
        · rfl
        · show (none : Option V) = if trigOf ⟨s.val ++ [none], s.trig ++ [false]⟩ d = true
              then (getv ⟨s.val ++ [none], s.trig ++ [false]⟩ p).map f else none
          rw [htrig]
          simp
        · show (none : Option V) = if trigOf ⟨s.val ++ [none], s.trig ++ [false]⟩ d = true
              then (match getv ⟨s.val ++ [none], s.trig ++ [false]⟩ p,
                  getv ⟨s.val ++ [none], s.trig ++ [false]⟩ q with
                | some a, some b => some (f a b)
                | _, _ => none)
              else none
          rw [htrig]
          simp
      · apply sync_of_source
        show (g ++ [x]).getD d .source = .source
        apply ldGetD_append_gt
        omega

theorem invAll_push {g : SigGraph V} [DecidableEq V] {s : SigState V} {n : Nat}
    {v : V} (hinv : invAll g s) (hok : cmdOK g (SigCmd.push n v) = true) :
    invAll g (pushSig g n v s) := by
  obtain ⟨hwf, hst, hv, hsync⟩ := hinv
  have hok' : n < g.length ∧ (nodeAt g n).isSource = true := by
    unfold cmdOK at hok
    simp only [Bool.and_eq_true, decide_eq_true_eq] at hok
    exact hok
  have hsrc : nodeAt g n = .source := isSource_eq_source hok'.2
  have htame := (sigTame g (g.length + 1)).1 n v s
  refine ⟨hwf, ⟨htame.1.trans hst.1, htame.2.1.trans hst.2⟩, ?_, ?_⟩
  · apply (sigVip g (g.length + 1)).1 n v s hv
    rw [hsrc]
    intro p hp
    cases hp
  · intro d
    apply (sigSync hwf (g.length + 1)).1 n v s (fun _ => False)
      (by omega) hok'.1 hst hv (fun d' hd' _ => hsync d') ?_ d (fun h => h)
    unfold pushComputes
    rw [hsrc]
    trivial

theorem applyCmd_fst {g : SigGraph V} [DecidableEq V] {s : SigState V}
    {c : SigCmd V} : (applyCmd (g, s) c).1 = cmdGraph g c := by
  cases c <;> rfl

theorem invAll_applyCmd {g : SigGraph V} [DecidableEq V] {s : SigState V}
    {c : SigCmd V} (hinv : invAll g s) (hok : cmdOK g c = true) :
    invAll (applyCmd (g, s) c).1 (applyCmd (g, s) c).2 := by
  cases c with
  | newSource => exact invAll_create hinv (by intro p hp; cases hp)
  | newUnary p f =>
    apply invAll_create hinv
    intro p' hp'
    simp only [SigNode.parents, List.mem_singleton] at hp'
    subst hp'
    unfold cmdOK at hok
    simpa using hok
  | newBinary p q f =>
    apply invAll_create hinv
    intro p' hp'
    unfold cmdOK at hok
    simp only [Bool.and_eq_true, decide_eq_true_eq] at hok
    simp only [SigNode.parents, List.mem_cons, List.mem_singleton,
      List.not_mem_nil, or_false] at hp'
    rcases hp' with rfl | rfl
    · exact hok.1
    · exact hok.2
  | push n v => exact invAll_push hinv hok

theorem invAll_execFrom [DecidableEq V] :
    ∀ (cs : List (SigCmd V)) (g : SigGraph V) (s : SigState V),
    invAll g s → progOK g cs = true →
    invAll (execFrom (g, s) cs).1 (execFrom (g, s) cs).2 := by
  intro cs
  induction cs with
  | nil => intro g s hinv _; exact hinv
  | cons c cs ih =>
    intro g s hinv hok
    unfold progOK at hok
    simp only [Bool.and_eq_true] at hok
    have hstep := invAll_applyCmd hinv hok.1
    have hfst : (applyCmd (g, s) c).1 = cmdGraph g c := applyCmd_fst
    show invAll (execFrom (applyCmd (g, s) c) cs).1 (execFrom (applyCmd (g, s) c) cs).2
    have := ih (applyCmd (g, s) c).1 (applyCmd (g, s) c).2 hstep (by rw [hfst]; exact hok.2)
    simpa using this

theorem invAll_execCmds [DecidableEq V] {cs : List (SigCmd V)}
    (hok : progOK ([] : SigGraph V) cs = true) :
    invAll (execCmds cs).1 (execCmds cs).2 := by
  apply invAll_execFrom cs [] ⟨[], []⟩ ?_ hok
  refine ⟨?_, ⟨rfl, rfl⟩, ?_, ?_⟩
  · intro m hm; cases hm
  · intro m hm
    exfalso
    have : getv (⟨[], []⟩ : SigState V) m = none := rfl
    rw [this] at hm
    cases hm
  · intro d
    exact sync_of_source rfl

end ExecInvariant

section PushFacts

variable {V : Type} [DecidableEq V] {g : SigGraph V}

theorem not_reach_of_lt (hwf : graphWF g) {n d : Nat} (h : d < n) :
    ¬ ReachSig g n d :=
  fun hr => absurd (ReachSig.le hwf hr) (by omega)

/-- After `set`, the target node holds the pushed value (whether or not the
value changed), because a cascade only ever modifies descendants. -/
theorem setSig_stores (hwf : graphWF g) {fuel n : Nat} {v : V} {s : SigState V}
    (hn : n < s.val.length) :
    getv (setSig g (fuel + 1) n v s) n = some v := by
  rw [setSig_succ]
  by_cases hcur : getv s n = some v
  · rw [if_pos hcur]; exact hcur
  · rw [if_neg hcur]
    have htame := (sigTame g fuel).2.2 (childrenFrom g n)
      ⟨s.val.set n (some v), markList s.trig (childrenFrom g n)⟩
    have hexcl : ¬ ∃ m ∈ childrenFrom g n, ReachSig g m n := by
      rintro ⟨m, hm, hr⟩
      have h1 := child_gt hwf hm
      have h2 := ReachSig.le hwf hr
      omega
    rw [((htame.2.2 n).1 hexcl).1]
    show (s.val.set n (some v)).getD n none = some v
    exact ldGetD_set_self hn

/-- `set` with an unchanged value is a strict no-op (the dedup branch). -/
theorem setSig_dedup {fuel n : Nat} {v : V} {s : SigState V}
    (h : getv s n = some v) :
    setSig g (fuel + 1) n v s = s := by
  rw [setSig_succ, if_pos h]

/-- A strictly changing `set` flips the ghost flag of every subscriber. -/
theorem setSig_marks {fuel n m : Nat} {v : V} {s : SigState V}
    (hstrict : getv s n ≠ some v) (hm : m ∈ childrenFrom g n)
    (hlen : m < s.trig.length) :
    trigOf (setSig g (fuel + 1) n v s) m = true := by
  rw [setSig_succ, if_neg hstrict]
  have htame := (sigTame g fuel).2.2 (childrenFrom g n)
    ⟨s.val.set n (some v), markList s.trig (childrenFrom g n)⟩
  apply (htame.2.2 m).2.2
  exact markList_getD_mem hm hlen

theorem pushSig_frame_getv {n d : Nat} {v : V} {s : SigState V}
    (h : ¬ ReachSig g n d) : getv (pushSig g n v s) d = getv s d :=
  ((((sigTame g (g.length + 1)).1 n v s).2.2 d).1 h).1

theorem pushSig_trig_mono {n d : Nat} {v : V} {s : SigState V}
    (h : trigOf s d = true) : trigOf (pushSig g n v s) d = true :=
  (((sigTame g (g.length + 1)).1 n v s).2.2 d).2.2 h

end PushFacts

section HoldAfterPush

variable {V : Type} [DecidableEq V]

/-- The execution "create a Discrete, push `v`, then create a hold/lift1 of it":
the parent ends up holding `v` but the derived node, created after the push,
holds nothing — `Continuous::new1` never replays the parent's current value. -/
theorem createdAfterPush_facts (v : V) (f : V → V) :
    getv (execCmds [SigCmd.newSource, SigCmd.push 0 v, SigCmd.newUnary 0 f]).2 0
      = some v ∧
    getv (execCmds [SigCmd.newSource, SigCmd.push 0 v, SigCmd.newUnary 0 f]).2 1
      = none := by
  have hwf1 : graphWF [SigNode.source (V := V)] := by
    intro m hm p hp
    have hm0 : m = 0 := by
      simp only [List.length_singleton] at hm; omega
    subst hm0
    cases hp
  have hstore : getv (pushSig [SigNode.source (V := V)] 0 v ⟨[none], [false]⟩) 0
      = some v :=
    setSig_stores hwf1 (by simp)
  have hlen : (pushSig [SigNode.source (V := V)] 0 v ⟨[none], [false]⟩).val.length
      = 1 :=
    ((sigTame [SigNode.source (V := V)] (1 + 1)).1 0 v ⟨[none], [false]⟩).1
  constructor
  · show ((pushSig [SigNode.source (V := V)] 0 v ⟨[none], [false]⟩).val
      ++ [none]).getD 0 none = some v
    rw [ldGetD_append_lt (by omega)]
    exact hstore
  · show ((pushSig [SigNode.source (V := V)] 0 v ⟨[none], [false]⟩).val
      ++ [none]).getD 1 none = none
    rw [show (1 : Nat) = (pushSig [SigNode.source (V := V)] 0 v
      ⟨[none], [false]⟩).val.length from hlen.symm]
    exact ldGetD_append_self

end HoldAfterPush

/-- C1 (counterexample to the claim as stated): run
"create a Discrete; push 5; create a derived signal with function (+1)".
The parent holds a value (`some 5`), so the claim as stated requires the
derived signal to sample to the function applied to the parent value
(`some 6`); the code yields `none` because `Continuous::new1` installs the
update callback but never replays the parent's current value at creation. -/
theorem C1_counterexample :
    getv (execCmds [SigCmd.newSource, SigCmd.push 0 5,
        SigCmd.newUnary 0 (fun a => a + 1)]).2 0 = some 5 ∧
    getv (execCmds [SigCmd.newSource, SigCmd.push 0 5,
        SigCmd.newUnary 0 (fun a => a + 1)]).2 1 = none ∧
    getv (execCmds [SigCmd.newSource, SigCmd.push 0 5,
        SigCmd.newUnary 0 (fun a => a + 1)]).2 1 ≠
      (getv (execCmds [SigCmd.newSource, SigCmd.push 0 5,
        SigCmd.newUnary 0 (fun a => a + 1)]).2 0).map (fun a => a + 1) := by
  obtain ⟨h0, h1⟩ := createdAfterPush_facts (V := Nat) 5 (fun a => a + 1)
  refine ⟨h0, h1, ?_⟩
  rw [h0, h1]
  simp

/-- C1 (amended): at every quiescent point of every well-formed execution,
every node's sampled value equals its expected value: a source holds whatever
was pushed; a Continuous node built by hold/lift1/map/lift2 holds exactly the
combining function applied to the current parent values — which are those of
the most recent parent update at which all required parents had values —
provided some parent has strictly changed since the node's creation and all
required parents have values, and holds no value otherwise (in particular a
node created from parents that already hold values samples to no value until
a parent next changes). -/
theorem C1_continuous_invariant {V : Type} [DecidableEq V]
    (cs : List (SigCmd V)) (hok : progOK ([] : SigGraph V) cs = true) (d : Nat) :
    getv (execCmds cs).2 d = expectedVal (execCmds cs).1 (execCmds cs).2 d :=
  (invAll_execCmds hok).2.2.2 d

/-- Witness for C1: a concrete execution satisfying the hypothesis. -/
theorem C1_continuous_invariant_witness :
    progOK ([] : SigGraph Nat)
        [SigCmd.newSource, SigCmd.newUnary 0 (fun a => a)] = true ∧
    getv (execCmds [SigCmd.newSource,
        SigCmd.newUnary 0 (fun a => a + 0)]).2 1 =
      expectedVal (execCmds [SigCmd.newSource,
        SigCmd.newUnary 0 (fun a => a + 0)]).1
        (execCmds [SigCmd.newSource, SigCmd.newUnary 0 (fun a => a + 0)]).2 1 :=
  ⟨rfl, C1_continuous_invariant
    [SigCmd.newSource, SigCmd.newUnary 0 (fun a => a + 0)] rfl 1⟩

/-- C2: for `c = lift2(a, b, f)` whose two parents have previously held values
(`x0`, `y0`), after `a.push x` then `b.push y` with `x ≠ x0` and `y ≠ y0`,
`c.sample()` returns `f x y`. -/
theorem C2_lift2_propagation {V : Type} [DecidableEq V] (f : V → V → V)
    (x0 y0 x y : V) (hx : x ≠ x0) (hy : y ≠ y0) :
    getv (execCmds [SigCmd.newSource, SigCmd.newSource, SigCmd.newBinary 0 1 f,
      SigCmd.push 0 x0, SigCmd.push 1 y0,
      SigCmd.push 0 x, SigCmd.push 1 y]).2 2 = some (f x y) := by
  have h3 : invAll (execCmds [SigCmd.newSource (V := V), SigCmd.newSource,
      SigCmd.newBinary 0 1 f]).1
      (execCmds [SigCmd.newSource (V := V), SigCmd.newSource,
      SigCmd.newBinary 0 1 f]).2 :=
    invAll_execCmds rfl
  have hinv0 : invAll [SigNode.source, SigNode.source, SigNode.binary 0 1 f]
      (⟨[none, none, none], [false, false, false]⟩ : SigState V) := h3
  set g : SigGraph V := [SigNode.source, SigNode.source, SigNode.binary 0 1 f]
    with hg
  set t0 : SigState V := ⟨[none, none, none], [false, false, false]⟩ with ht0
  have hwf := hinv0.1
  have hinv1 : invAll g (pushSig g 0 x0 t0) := invAll_push hinv0 rfl
  have hinv2 : invAll g (pushSig g 1 y0 (pushSig g 0 x0 t0)) :=
    invAll_push hinv1 rfl
  have hinv3 : invAll g (pushSig g 0 x (pushSig g 1 y0 (pushSig g 0 x0 t0))) :=
    invAll_push hinv2 rfl
  have hinv4 : invAll g (pushSig g 1 y (pushSig g 0 x
      (pushSig g 1 y0 (pushSig g 0 x0 t0)))) :=
    invAll_push hinv3 rfl
  set t1 := pushSig g 0 x0 t0
  set t2 := pushSig g 1 y0 t1
  set t3 := pushSig g 0 x t2
  set t4 := pushSig g 1 y t3
  have hnr10 : ¬ ReachSig g 1 0 := not_reach_of_lt hwf (by omega)
  have hv1 : getv t1 0 = some x0 := setSig_stores hwf (by rw [ht0]; simp)
  have hv2 : getv t2 0 = some x0 := by rw [pushSig_frame_getv hnr10]; exact hv1
  have hstrict : getv t2 0 ≠ some x := by
    rw [hv2]
    intro h
    exact hx (Option.some.inj h).symm
  have hmem2 : 2 ∈ childrenFrom g 0 := by
    apply mem_childrenFrom.2
    refine ⟨by rw [hg]; simp, ?_⟩
    rw [hg]
    show (0 : Nat) ∈ [0, 1]
    simp
  have htrig3 : trigOf t3 2 = true :=
    setSig_marks hstrict hmem2 (by rw [hinv2.2.1.2, hg]; simp)
  have htrig4 : trigOf t4 2 = true := pushSig_trig_mono htrig3
  have hv3 : getv t3 0 = some x :=
    setSig_stores hwf (by rw [hinv2.2.1.1, hg]; simp)
  have hv4 : getv t4 0 = some x := by rw [pushSig_frame_getv hnr10]; exact hv3
  have hv4y : getv t4 1 = some y :=
    setSig_stores hwf (by rw [hinv3.2.1.1, hg]; simp)
  have hsync := hinv4.2.2.2 2
  show getv t4 2 = some (f x y)
  rw [hsync]
  unfold expectedVal
  show (if trigOf t4 2 = true then
      (match getv t4 0, getv t4 1 with
        | some a, some b => some (f a b)
        | _, _ => none)
    else none) = some (f x y)
  rw [htrig4, hv4, hv4y, if_pos rfl]

/-- Witness for C2: concrete values over `Nat`. -/
theorem C2_lift2_propagation_witness :
    (1 : Nat) ≠ 0 ∧ (2 : Nat) ≠ 0 ∧
    getv (execCmds [SigCmd.newSource, SigCmd.newSource,
      SigCmd.newBinary 0 1 (fun a b => a + b),
      SigCmd.push 0 0, SigCmd.push 1 0,
      SigCmd.push 0 1, SigCmd.push 1 2]).2 2 = some 3 :=
  ⟨by decide, by decide,
    C2_lift2_propagation (fun a b => a + b) 0 0 1 2 (by decide) (by decide)⟩

/-- C3: `set` compares the new value to the current one: if unchanged it is a
complete no-op (nothing stored, no subscriber invoked, so a second identical
push produces no second cascade — `set` is idempotent); if changed, the new
value is stored and the subscribers of the node are run in subscription order,
synchronously (the sequential `notifySig` fold over the subscriber list). -/
theorem C3_set_dedup {V : Type} [DecidableEq V] (g : SigGraph V)
    (hwf : graphWF g) (n : Nat) (v : V) (s : SigState V)
    (hn : n < g.length) (hst : stOK g s) :
    (getv s n = some v → pushSig g n v s = s) ∧
    getv (pushSig g n v s) n = some v ∧
    pushSig g n v (pushSig g n v s) = pushSig g n v s ∧
    (getv s n ≠ some v → pushSig g n v s =
      notifySig g g.length (childrenFrom g n)
        ⟨s.val.set n (some v), markList s.trig (childrenFrom g n)⟩) := by
  have hn' : n < s.val.length := by rw [hst.1]; exact hn
  have hstore : getv (pushSig g n v s) n = some v := setSig_stores hwf hn'
  refine ⟨fun h => setSig_dedup h, hstore, setSig_dedup hstore, fun h => ?_⟩
  show setSig g (g.length + 1) n v s = _
  rw [setSig_succ, if_neg h]

/-- Witness for C3: a one-node graph over `Nat`. -/
theorem C3_set_dedup_witness :
    graphWF [SigNode.source (V := Nat)] ∧
    ((getv (⟨[none], [false]⟩ : SigState Nat) 0 = some 4 →
      pushSig [SigNode.source] 0 4 ⟨[none], [false]⟩ = ⟨[none], [false]⟩) ∧
    getv (pushSig [SigNode.source (V := Nat)] 0 4 ⟨[none], [false]⟩) 0 = some 4 ∧
    pushSig [SigNode.source (V := Nat)] 0 4
        (pushSig [SigNode.source] 0 4 ⟨[none], [false]⟩) =
      pushSig [SigNode.source] 0 4 ⟨[none], [false]⟩ ∧
    (getv (⟨[none], [false]⟩ : SigState Nat) 0 ≠ some 4 →
      pushSig [SigNode.source (V := Nat)] 0 4 ⟨[none], [false]⟩ =
        notifySig [SigNode.source] 1
          (childrenFrom ([SigNode.source] : SigGraph Nat) 0)
          ⟨[none].set 0 (some 4),
            markList [false] (childrenFrom ([SigNode.source] : SigGraph Nat) 0)⟩)) := by
  have hwf : graphWF [SigNode.source (V := Nat)] := by
    intro m hm p hp
    have hm0 : m = 0 := by simp only [List.length_singleton] at hm; omega
    subst hm0
    cases hp
  exact ⟨hwf, C3_set_dedup [SigNode.source] hwf 0 4 ⟨[none], [false]⟩
    (by decide) ⟨rfl, rfl⟩⟩

/-- C4 (counterexample to the claim as stated): push 7 into a Discrete, then
create `hold` afterwards; the claim requires the hold to sample `some 7`, but
the code yields `none` (the hold only mirrors changes that occur after its
creation). -/
theorem C4_counterexample :
    getv (execCmds [SigCmd.newSource, SigCmd.push 0 7,
        SigCmd.newUnary 0 (fun a => a)]).2 0 = some 7 ∧
    getv (execCmds [SigCmd.newSource, SigCmd.push 0 7,
        SigCmd.newUnary 0 (fun a => a)]).2 1 = none ∧
    getv (execCmds [SigCmd.newSource, SigCmd.push 0 7,
        SigCmd.newUnary 0 (fun a => a)]).2 1 ≠ some 7 := by
  obtain ⟨h0, h1⟩ := createdAfterPush_facts (V := Nat) 7 (fun a => a)
  refine ⟨h0, h1, ?_⟩
  rw [h1]
  simp

/-- C4 (amended): a hold created before any push samples to `none`; after
`push v` it samples to `some v`; but a hold created after the push samples to
`none` until the Discrete next changes value. -/
theorem C4_hold_semantics {V : Type} [DecidableEq V] (v : V) :
    getv (execCmds [SigCmd.newSource, SigCmd.newUnary 0 (fun a => a),
      SigCmd.push 0 v]).2 1 = some v ∧
    getv (execCmds [SigCmd.newSource (V := V),
      SigCmd.newUnary 0 (fun a => a)]).2 1 = none ∧
    getv (execCmds [SigCmd.newSource, SigCmd.push 0 v,
      SigCmd.newUnary 0 (fun a => a)]).2 1 = none := by
  refine ⟨?_, rfl, (createdAfterPush_facts v (fun a => a)).2⟩
  have h2 : invAll (execCmds [SigCmd.newSource (V := V),
      SigCmd.newUnary 0 (fun a => a)]).1
      (execCmds [SigCmd.newSource (V := V), SigCmd.newUnary 0 (fun a => a)]).2 :=
    invAll_execCmds rfl
  have hinv0 : invAll [SigNode.source, SigNode.unary 0 (fun a => a)]
      (⟨[none, none], [false, false]⟩ : SigState V) := h2
  set g : SigGraph V := [SigNode.source, SigNode.unary 0 (fun a => a)] with hg
  set t0 : SigState V := ⟨[none, none], [false, false]⟩ with ht0
  have hwf := hinv0.1
  have hinv1 : invAll g (pushSig g 0 v t0) := invAll_push hinv0 rfl
  have hstrict : getv t0 0 ≠ some v := by
    intro h
    exact Option.noConfusion h
  have hmem : 1 ∈ childrenFrom g 0 := by
    apply mem_childrenFrom.2
    refine ⟨by rw [hg]; simp, ?_⟩
    rw [hg]
    show (0 : Nat) ∈ [0]
    simp
  have htrig : trigOf (pushSig g 0 v t0) 1 = true :=
    setSig_marks hstrict hmem (by rw [ht0]; simp)
  have hv0 : getv (pushSig g 0 v t0) 0 = some v :=
    setSig_stores hwf (by rw [ht0]; simp)
  have hsync := hinv1.2.2.2 1
  show getv (pushSig g 0 v t0) 1 = some v
  rw [hsync]
  unfold expectedVal
  show (if trigOf (pushSig g 0 v t0) 1 = true then
      (getv (pushSig g 0 v t0) 0).map (fun a => a) else none) = some v
  rw [htrig, hv0, if_pos rfl]
  rfl

/-- Witness for C4 (amended) at a concrete value. -/
theorem C4_hold_semantics_witness :
    getv (execCmds [SigCmd.newSource, SigCmd.newUnary 0 (fun a => a),
      SigCmd.push 0 (3 : Nat)]).2 1 = some 3 ∧
    getv (execCmds [SigCmd.newSource (V := Nat),
      SigCmd.newUnary 0 (fun a => a)]).2 1 = none ∧
    getv (execCmds [SigCmd.newSource, SigCmd.push 0 (3 : Nat),
      SigCmd.newUnary 0 (fun a => a)]).2 1 = none :=
  C4_hold_semantics 3

/-!
Part 2: the synth loop of `src/synth.rs` (`MidiSynth::spawn_thread`).
f64 arithmetic is modelled over the reals.  One buffer-fill iteration:
advance the time by one sample period, accumulate the mixed sample over the
held voices (seven octave-doubled partials each, amplitudes decaying by 0.3
from 0.5, equal-weight 1/|voices| coefficient), and push one copy of the
sample per output channel while the inner-loop guard
`prod.free_len() > channel_count` holds.
-/

/-- `440.0 * f64::powf(2.0, (midi_note - 69.0) / 12.0)`. -/
noncomputable def midiNoteFreq (n : Nat) : ℝ :=
  440 * (2 : ℝ) ^ (((n : ℝ) - 69) / 12)

/-- The inner octave loop: `sample += network((time, octave_freq)) * amplitude
* sample_coeff; amplitude *= 0.3; octave_freq *= 2.0`, run `OCTAVES` times. -/
noncomputable def octaveLoop (net : ℝ → ℝ → ℝ) (t coeff : ℝ) :
    Nat → ℝ → ℝ → ℝ → ℝ
  | 0, _, _, acc => acc
  | k + 1, amp, fr, acc =>
    octaveLoop net t coeff k (amp * 0.3) (fr * 2) (acc + net t fr * amp * coeff)

/-- The per-voice loop: for each held midi note, run the octave loop starting
from amplitude 0.5 at the note's frequency. -/
noncomputable def voiceLoop (net : ℝ → ℝ → ℝ) (t coeff : ℝ) (voices : List Nat)
    (acc : ℝ) : ℝ :=
  voices.foldl (fun acc n => octaveLoop net t coeff 7 0.5 (midiNoteFreq n) acc) acc

/-- One sample of the mix: `sample = 0.0`, `sample_coeff = if voices.is_empty()
then 0.0 else 1.0 / voices.len()`, then the voice loop. -/
noncomputable def mixSample (net : ℝ → ℝ → ℝ) (voices : List Nat) (t : ℝ) : ℝ :=
  voiceLoop net t (if voices.isEmpty then 0 else 1 / (voices.length : ℝ)) voices 0

/-- The state of one buffer-fill pass: the running time, the ring buffer's
free capacity (in samples), and the samples written so far (f64 values, before
the f32 cast). -/
structure FillState where
  time : ℝ
  free : Nat
  out : List ℝ

/-- One iteration of the inner fill loop: advance time by `dt`, compute the
mixed sample, and push one copy per channel. -/
noncomputable def fillStep (net : ℝ → ℝ → ℝ) (voices : List Nat) (dt : ℝ)
    (cc : Nat) (st : FillState) : FillState :=
  ⟨st.time + dt, st.free - cc,
    st.out ++ List.replicate cc (mixSample net voices (st.time + dt))⟩

/-- The inner fill loop: `while prod.free_len() > channel_count { ... }`
(fuel-indexed; `free` decreases by `cc` at every iteration). -/
noncomputable def fillLoop (net : ℝ → ℝ → ℝ) (voices : List Nat) (dt : ℝ)
    (cc : Nat) : Nat → FillState → FillState
  | 0, st => st
  | fuel + 1, st =>
    if cc < st.free then fillLoop net voices dt cc fuel (fillStep net voices dt cc st)
    else st

theorem fillLoop_out_extends (net : ℝ → ℝ → ℝ) (voices : List Nat) (dt : ℝ)
    (cc : Nat) : ∀ (fuel : Nat) (st : FillState),
    ∃ l, (fillLoop net voices dt cc fuel st).out = st.out ++ l := by
  intro fuel
  induction fuel with
  | zero => intro st; exact ⟨[], by simp [fillLoop]⟩
  | succ fuel ih =>
    intro st
    unfold fillLoop
    by_cases h : cc < st.free
    · rw [if_pos h]
      obtain ⟨l, hl⟩ := ih (fillStep net voices dt cc st)
      refine ⟨List.replicate cc (mixSample net voices (st.time + dt)) ++ l, ?_⟩
      rw [hl]
      simp [fillStep]
    · rw [if_neg h]
      exact ⟨[], by simp⟩

/-- C5 (counterexample to the claim as stated): with two channels and free
capacity of exactly one frame (2 samples), the claim requires the loop to
write a frame, but the guard `free_len() > channel_count` is strict, so
nothing is written. -/
theorem C5_counterexample :
    (2 : Nat) ≤ 2 ∧
    (fillLoop (fun _ _ => 0) [] 0 2 5 ⟨0, 2, []⟩).out = [] :=
  ⟨by decide, rfl⟩

/-- C5 (amended): an iteration of the fill loop writes (a whole number of
full `cc`-sample frames) exactly when the free capacity is strictly greater
than `channel_count`; at free capacity equal to one frame it does not write. -/
theorem C5_fill_guard (net : ℝ → ℝ → ℝ) (voices : List Nat) (dt : ℝ)
    (cc : Nat) (hcc : 0 < cc) (fuel : Nat) (st : FillState) :
    ((fillLoop net voices dt cc (fuel + 1) st).out ≠ st.out ↔ cc < st.free) ∧
    cc ∣ ((fillLoop net voices dt cc (fuel + 1) st).out.length - st.out.length) := by
  constructor
  · constructor
    · intro hne
      by_contra h
      rw [show fillLoop net voices dt cc (fuel + 1) st = st by
        unfold fillLoop; rw [if_neg h]] at hne
      exact hne rfl
    · intro h
      show (fillLoop net voices dt cc (fuel + 1) st).out ≠ st.out
      unfold fillLoop
      rw [if_pos h]
      obtain ⟨l, hl⟩ := fillLoop_out_extends net voices dt cc fuel
        (fillStep net voices dt cc st)
      rw [hl]
      intro heq
      have hlen := congrArg List.length heq
      simp [fillStep] at hlen
      exact absurd hlen.1 (by omega)
  · have hgen : ∀ (fu : Nat) (s2 : FillState),
        ∃ k, (fillLoop net voices dt cc fu s2).out.length
          = s2.out.length + cc * k := by
      intro fu
      induction fu with
      | zero => intro s2; exact ⟨0, by simp [fillLoop]⟩
      | succ fu ih =>
        intro s2
        unfold fillLoop
        by_cases h : cc < s2.free
        · rw [if_pos h]
          obtain ⟨k, hk⟩ := ih (fillStep net voices dt cc s2)
          refine ⟨k + 1, ?_⟩
          rw [hk]
          have h2 : (fillStep net voices dt cc s2).out.length
              = s2.out.length + cc := by simp [fillStep]
          rw [h2, Nat.mul_succ]
          omega
        · rw [if_neg h]; exact ⟨0, by simp⟩
    obtain ⟨k, hk⟩ := hgen (fuel + 1) st
    rw [hk]
    exact ⟨k, by omega⟩

/-- Witness for C5 (amended): one channel, two free slots. -/
theorem C5_fill_guard_witness :
    (0 : Nat) < 1 ∧
    (((fillLoop (fun _ _ => 0) [] 0 1 1 ⟨0, 2, []⟩).out ≠ [] ↔ 1 < 2) ∧
      1 ∣ ((fillLoop (fun _ _ => 0) [] 0 1 1 ⟨0, 2, []⟩).out.length - 0)) :=
  ⟨by decide, C5_fill_guard (fun _ _ => 0) [] 0 1 (by decide) 0 ⟨0, 2, []⟩⟩

/-- With no held voices, the mixed sample is exactly 0. -/
theorem mixSample_nil (net : ℝ → ℝ → ℝ) (t : ℝ) : mixSample net [] t = 0 := rfl

/-- C6: during a buffer-fill pass with an empty voice set, every sample
written into the ring buffer is silence (0). -/
theorem C6_voice_silence (net : ℝ → ℝ → ℝ) (dt : ℝ) (cc fuel : Nat) (t0 : ℝ)
    (free : Nat) (x : ℝ)
    (hx : x ∈ (fillLoop net [] dt cc fuel ⟨t0, free, []⟩).out) : x = 0 := by
  have hgen : ∀ (fu : Nat) (st : FillState), (∀ y ∈ st.out, y = 0) →
      ∀ y ∈ (fillLoop net [] dt cc fu st).out, y = 0 := by
    intro fu
    induction fu with
    | zero => intro st h; exact h
    | succ fu ih =>
      intro st h y hy
      unfold fillLoop at hy
      by_cases hfree : cc < st.free
      · rw [if_pos hfree] at hy
        refine ih (fillStep net [] dt cc st) ?_ y hy
        intro z hz
        simp only [fillStep, List.mem_append] at hz
        rcases hz with hz | hz
        · exact h z hz
        · rw [mixSample_nil] at hz
          exact List.eq_of_mem_replicate hz
      · rw [if_neg hfree] at hy
        exact h y hy
  exact hgen fuel ⟨t0, free, []⟩ (by intro y hy; cases hy) x hx

/-- Witness for C6: a concrete fill pass that writes one zero sample. -/
theorem C6_voice_silence_witness :
    (0 : ℝ) ∈ (fillLoop (fun _ _ => 0) [] 0 1 1 ⟨0, 2, []⟩).out ∧ (0 : ℝ) = 0 := by
  have hmem : (0 : ℝ) ∈ (fillLoop (fun _ _ => 0) [] 0 1 1 ⟨0, 2, []⟩).out := by
    show (0 : ℝ) ∈ (fillLoop (fun _ _ => 0) [] 0 1 0
      (fillStep (fun _ _ => 0) [] 0 1 ⟨0, 2, []⟩)).out
    show (0 : ℝ) ∈ [] ++ List.replicate 1 (mixSample (fun _ _ => 0) [] (0 + 0))
    rw [mixSample_nil]
    simp
  exact ⟨hmem, C6_voice_silence (fun _ _ => 0) 0 1 1 0 2 0 hmem⟩

/-- Closed form of the octave loop: seven octave-doubled partials with
amplitudes decaying geometrically by 0.3. -/
theorem octaveLoop_eq (net : ℝ → ℝ → ℝ) (t coeff : ℝ) :
    ∀ (k : Nat) (amp fr acc : ℝ),
    octaveLoop net t coeff k amp fr acc =
      acc + ∑ i ∈ Finset.range k,
        net t (fr * 2 ^ i) * (amp * (0.3 : ℝ) ^ i) * coeff := by
  intro k
  induction k with
  | zero => intro amp fr acc; simp [octaveLoop]
  | succ k ih =>
    intro amp fr acc
    show octaveLoop net t coeff k (amp * 0.3) (fr * 2)
        (acc + net t fr * amp * coeff) = _
    rw [ih, Finset.sum_range_succ']
    have hcong : ∀ i ∈ Finset.range k,
        net t (fr * 2 * 2 ^ i) * (amp * 0.3 * (0.3 : ℝ) ^ i) * coeff
          = net t (fr * 2 ^ (i + 1)) * (amp * (0.3 : ℝ) ^ (i + 1)) * coeff := by
      intro i _
      have h1 : fr * 2 * (2 : ℝ) ^ i = fr * 2 ^ (i + 1) := by ring
      have h2 : amp * 0.3 * (0.3 : ℝ) ^ i = amp * (0.3 : ℝ) ^ (i + 1) := by ring
      rw [h1, h2]
    rw [Finset.sum_congr rfl hcong]
    simp only [pow_zero, mul_one]
    ring

/-- Closed form of the voice loop: the sum over held notes. -/
theorem voiceLoop_eq (net : ℝ → ℝ → ℝ) (t coeff : ℝ) :
    ∀ (vs : List Nat) (acc : ℝ),
    voiceLoop net t coeff vs acc =
      acc + (vs.map (fun n => ∑ i ∈ Finset.range 7,
        net t (midiNoteFreq n * 2 ^ i) * ((0.5 : ℝ) * (0.3 : ℝ) ^ i) * coeff)).sum := by
  intro vs
  induction vs with
  | nil => intro acc; simp [voiceLoop]
  | cons n vs ih =>
    intro acc
    show voiceLoop net t coeff vs
        (octaveLoop net t coeff 7 0.5 (midiNoteFreq n) acc) = _
    rw [ih, octaveLoop_eq]
    simp only [List.map_cons, List.sum_cons]
    ring

/-- C9: in every buffer-fill iteration with a non-empty voice set, the time
advances by one sample period `1 / sample_rate`, and the frame value written
(before the f64-to-f32 cast, replicated once per output channel) is the sum
over held notes `n` and octave indices `k < 7` of
`net t (440·2^((n-69)/12)·2^k) · (0.5·0.3^k) · (1/|voices|)`. -/
theorem C9_mix_formula (net : ℝ → ℝ → ℝ) (voices : List Nat) (sr : Nat)
    (cc : Nat) (st : FillState) (hne : voices ≠ []) :
    (fillStep net voices (1 / (sr : ℝ)) cc st).time = st.time + 1 / (sr : ℝ) ∧
    (fillStep net voices (1 / (sr : ℝ)) cc st).out =
      st.out ++ List.replicate cc
        ((voices.map (fun n => ∑ k ∈ Finset.range 7,
          net (st.time + 1 / (sr : ℝ)) (midiNoteFreq n * 2 ^ k) *
            ((0.5 : ℝ) * (0.3 : ℝ) ^ k) * (1 / (voices.length : ℝ)))).sum) := by
  refine ⟨rfl, ?_⟩
  show st.out ++ List.replicate cc
      (mixSample net voices (st.time + 1 / (sr : ℝ))) = _
  have hmix : mixSample net voices (st.time + 1 / (sr : ℝ)) =
      (voices.map (fun n => ∑ k ∈ Finset.range 7,
        net (st.time + 1 / (sr : ℝ)) (midiNoteFreq n * 2 ^ k) *
          ((0.5 : ℝ) * (0.3 : ℝ) ^ k) * (1 / (voices.length : ℝ)))).sum := by
    unfold mixSample
    rw [if_neg (by simpa [List.isEmpty_iff] using hne)]
    rw [voiceLoop_eq]
    ring
  rw [hmix]

/-- Witness for C9: a single held note with a trivial network. -/
theorem C9_mix_formula_witness :
    ([69] : List Nat) ≠ [] ∧
    ((fillStep (fun _ _ => 0) [69] (1 / ((1 : Nat) : ℝ)) 2 ⟨0, 5, []⟩).time
        = 0 + 1 / ((1 : Nat) : ℝ) ∧
      (fillStep (fun _ _ => 0) [69] (1 / ((1 : Nat) : ℝ)) 2 ⟨0, 5, []⟩).out =
        [] ++ List.replicate 2
          ((([69] : List Nat).map (fun n => ∑ k ∈ Finset.range 7,
            (fun _ _ => (0 : ℝ)) ((0 : ℝ) + 1 / ((1 : Nat) : ℝ))
              (midiNoteFreq n * 2 ^ k) *
              ((0.5 : ℝ) * (0.3 : ℝ) ^ k) *
              (1 / (([69] : List Nat).length : ℝ)))).sum)) :=
  ⟨by decide, C9_mix_formula (fun _ _ => 0) [69] 1 2 ⟨0, 5, []⟩ (by decide)⟩

/-!
Part 3: the synth thread's outer loop and teardown (`MidiSynth::spawn_thread`
and the `Drop` impl), and `MidiSynth::new`.  The cancellation flag is modelled
by the sequence of values the thread's once-per-pass check reads; one executed
pass is one buffer-fill pass followed by one sleep.
-/

/-- One outer-loop pass over the whole synth state: run the inner fill loop
(the voice set is whatever the MIDI drain left; it does not matter for the
pass-count claims).  Fuel for the inner loop is its own free capacity, which
is always sufficient since each write consumes at least one slot. -/
noncomputable def synthPass (net : ℝ → ℝ → ℝ) (voices : List Nat) (dt : ℝ)
    (cc : Nat) (st : FillState) : FillState :=
  fillLoop net voices dt cc st.free st

/-- The outer loop: `while thread_run.load(...) { ...; sleep }`.  The flag is
read exactly once, at the top of each pass; `i` is the index of the next
read. -/
noncomputable def synthLoop (net : ℝ → ℝ → ℝ) (voices : List Nat) (dt : ℝ)
    (cc : Nat) (flags : Nat → Bool) : Nat → Nat → FillState → FillState
  | 0, _, st => st
  | fuel + 1, i, st =>
    if flags i then
      synthLoop net voices dt cc flags fuel (i + 1) (synthPass net voices dt cc st)
    else st

/-- How many passes the outer loop executes, starting from check index `i`. -/
def passesRun (flags : Nat → Bool) : Nat → Nat → Nat
  | 0, _ => 0
  | fuel + 1, i => if flags i then passesRun flags fuel (i + 1) + 1 else 0

/-- C8: if the cancellation flag reads false from check `k` onward (teardown
stores it and then joins), the thread executes at most `k` passes in total —
so at most one further buffer-fill pass plus one sleep after the store — and
the joined result is exactly the iteration of that many passes: nothing is
written into the ring buffer beyond those passes, hence nothing after
teardown's join returns. -/
theorem C8_cancellation (net : ℝ → ℝ → ℝ) (voices : List Nat) (dt : ℝ)
    (cc : Nat) (flags : Nat → Bool) (k fuel : Nat) (st : FillState)
    (hk : ∀ j, k ≤ j → flags j = false) :
    passesRun flags fuel 0 ≤ k ∧
    synthLoop net voices dt cc flags fuel 0 st =
      (synthPass net voices dt cc)^[passesRun flags fuel 0] st := by
  have hgen : ∀ (fu i : Nat) (s2 : FillState),
      passesRun flags fu i ≤ k - i ∧
      synthLoop net voices dt cc flags fu i s2 =
        (synthPass net voices dt cc)^[passesRun flags fu i] s2 := by
    intro fu
    induction fu with
    | zero => intro i s2; exact ⟨by simp [passesRun], rfl⟩
    | succ fu ih =>
      intro i s2
      by_cases hf : flags i
      · have hik : i < k := by
          by_contra hik
          rw [hk i (by omega)] at hf
          cases hf
        obtain ⟨h1, h2⟩ := ih (i + 1) (synthPass net voices dt cc s2)
        constructor
        · show (if flags i then passesRun flags fu (i + 1) + 1 else 0) ≤ k - i
          rw [if_pos hf]
          omega
        · show (if flags i then
              synthLoop net voices dt cc flags fu (i + 1)
                (synthPass net voices dt cc s2)
            else s2) = _
          rw [if_pos hf, h2]
          show _ = (synthPass net voices dt cc)^[
            if flags i then passesRun flags fu (i + 1) + 1 else 0] s2
          rw [if_pos hf, Function.iterate_succ_apply]
      · constructor
        · show (if flags i then passesRun flags fu (i + 1) + 1 else 0) ≤ k - i
          rw [if_neg hf]
          omega
        · show (if flags i then
              synthLoop net voices dt cc flags fu (i + 1)
                (synthPass net voices dt cc s2)
            else s2) = _
          rw [if_neg hf]
          show _ = (synthPass net voices dt cc)^[
            if flags i then passesRun flags fu (i + 1) + 1 else 0] s2
          rw [if_neg hf]
          rfl
  obtain ⟨h1, h2⟩ := hgen fuel 0 st
  exact ⟨by omega, h2⟩

/-- Witness for C8: a flag that is false from the start. -/
theorem C8_cancellation_witness :
    passesRun (fun _ => false) 3 0 ≤ 0 ∧
    synthLoop (fun _ _ => 0) [] 0 1 (fun _ => false) 3 0 ⟨0, 4, []⟩ =
      (synthPass (fun _ _ => 0) [] 0 1)^[passesRun (fun _ => false) 3 0]
        ⟨0, 4, []⟩ :=
  C8_cancellation (fun _ _ => 0) [] 0 1 (fun _ => false) 0 3 ⟨0, 4, []⟩
    (fun _ _ => rfl)

/-- The handle returned by `MidiSynth::new`: the cancellation flag (created
`true`), and the configuration, stored exactly as given.  The constructor has
no error path and performs no validation. -/
structure MidiSynthModel where
  threadRun : Bool
  sampleRate : Nat
  channelCount : Nat

/-- `MidiSynth::new`: create the flag as `true`, spawn the worker thread, and
return the handle.  No configuration value is checked, rejected or replaced. -/
def MidiSynthModel.new (sampleRate channelCount : Nat) : MidiSynthModel :=
  ⟨true, sampleRate, channelCount⟩

/-- C7 (counterexample to the claim as stated): constructing with a degenerate
configuration (channel count 0, sample rate 0) does not fail — there is no
error path, and no voice-count parameter even exists — it returns a live
handle with the thread running. -/
theorem C7_counterexample :
    MidiSynthModel.new 0 0 = ⟨true, 0, 0⟩ ∧
    (MidiSynthModel.new 0 0).threadRun = true :=
  ⟨rfl, rfl⟩

/-- C7 (amended): `MidiSynth::new` is infallible and performs no configuration
validation: for every sample rate and channel count, including zero, it
returns a running handle with the given values stored unchanged (so nothing is
ever silently defaulted — because nothing is validated at all). -/
theorem C7_no_validation (sampleRate channelCount : Nat) :
    (MidiSynthModel.new sampleRate channelCount).threadRun = true ∧
    (MidiSynthModel.new sampleRate channelCount).sampleRate = sampleRate ∧
    (MidiSynthModel.new sampleRate channelCount).channelCount = channelCount :=
  ⟨rfl, rfl, rfl⟩

/-!
Part 4: `Event::push` from `src/main.rs`.
-/

/-- `Event::push`: if the list has a last event and the new time is strictly
before it, return an error and leave the list unchanged; otherwise append. -/
def eventPush {T W : Type} [LinearOrder T] (events : List (T × W)) (time : T)
    (value : W) : Except String (List (T × W)) :=
  match events.getLast? with
  | some last =>
    if time < last.1 then Except.error "New event time was before previous event time"
    else Except.ok (events ++ [(time, value)])
  | none => Except.ok (events ++ [(time, value)])

/-- `Event::new(initial_time, initial_value)`. -/
def eventNew {T W : Type} (t0 : T) (v0 : W) : List (T × W) := [(t0, v0)]

theorem le_getLast_of_pairwise {T W : Type} [LinearOrder T] :
    ∀ {l : List (T × W)} {last : T × W},
    List.Pairwise (fun a b => a.1 ≤ b.1) l → l.getLast? = some last →
    ∀ a ∈ l, a.1 ≤ last.1 := by
  intro l
  induction l with
  | nil => intro last _ h; cases h
  | cons x xs ih =>
    intro last hp hl a ha
    cases hxs : xs with
    | nil =>
      subst hxs
      have hx : last = x := by
        simp [List.getLast?] at hl
        exact hl.symm
      subst hx
      simp at ha
      subst ha
      exact le_refl _
    | cons y ys =>
      subst hxs
      have hl2 : (y :: ys).getLast? = some last := by
        rw [← List.getLast?_cons_cons]
        exact hl
      obtain ⟨hx_all, hp'⟩ := List.pairwise_cons.1 hp
      rcases List.mem_cons.1 ha with rfl | hmem
      · exact hx_all last (List.mem_of_getLast?_eq_some hl2)
      · exact ih hp' hl2 a hmem

/-- C10: `Event::push` rejects (with an error, leaving the list unchanged) any
time strictly before the last stored event's time; otherwise it appends the
new event at the end; consequently the stored times are always
non-decreasing. -/
theorem C10_event_push {T W : Type} [LinearOrder T] (events : List (T × W))
    (time : T) (value : W) :
    (∀ last, events.getLast? = some last → time < last.1 →
      eventPush events time value =
        Except.error "New event time was before previous event time") ∧
    (∀ l, eventPush events time value = Except.ok l →
      l = events ++ [(time, value)]) ∧
    (List.Pairwise (fun a b => a.1 ≤ b.1) events →
      ∀ l, eventPush events time value = Except.ok l →
        List.Pairwise (fun a b => a.1 ≤ b.1) l) := by
  refine ⟨?_, ?_, ?_⟩
  · intro last hl ht
    unfold eventPush
    rw [hl]
    show (if time < last.1 then
        Except.error "New event time was before previous event time"
      else Except.ok (events ++ [(time, value)])) =
      Except.error "New event time was before previous event time"
    rw [if_pos ht]
  · intro l hok
    unfold eventPush at hok
    cases hl : events.getLast? with
    | none =>
      rw [hl] at hok
      have hok' : Except.ok (events ++ [(time, value)]) =
          (Except.ok l : Except String (List (T × W))) := hok
      exact (Except.ok.inj hok').symm
    | some last =>
      rw [hl] at hok
      have hok' : (if time < last.1 then
          Except.error "New event time was before previous event time"
        else Except.ok (events ++ [(time, value)])) =
          (Except.ok l : Except String (List (T × W))) := hok
      by_cases ht : time < last.1
      · rw [if_pos ht] at hok'; cases hok'
      · rw [if_neg ht] at hok'; exact (Except.ok.inj hok').symm
  · intro hp l hok
    unfold eventPush at hok
    cases hl : events.getLast? with
    | none =>
      rw [hl] at hok
      have hok' : Except.ok (events ++ [(time, value)]) =
          (Except.ok l : Except String (List (T × W))) := hok
      have hnil : events = [] := List.getLast?_eq_none_iff.1 hl
      rw [← Except.ok.inj hok', hnil]
      simp
    | some last =>
      rw [hl] at hok
      have hok' : (if time < last.1 then
          Except.error "New event time was before previous event time"
        else Except.ok (events ++ [(time, value)])) =
          (Except.ok l : Except String (List (T × W))) := hok
      by_cases ht : time < last.1
      · rw [if_pos ht] at hok'; cases hok'
      · rw [if_neg ht] at hok'
        rw [← Except.ok.inj hok']
        rw [List.pairwise_append]
        refine ⟨hp, by simp, ?_⟩
        intro a ha b hb
        have hb' : b = (time, value) := by simpa using hb
        subst hb'
        have h1 : a.1 ≤ last.1 := le_getLast_of_pairwise hp hl a ha
        have h2 : last.1 ≤ time := le_of_not_lt ht
        exact le_trans h1 h2

/-- Witness for C10: appending a later event to a sorted one-event list. -/
theorem C10_event_push_witness :
    eventPush [((0 : Nat), (10 : Nat))] 1 20 = Except.ok [(0, 10), (1, 20)] ∧
    List.Pairwise (fun a b => a.1 ≤ b.1) [((0 : Nat), (10 : Nat)), (1, 20)] :=
  ⟨rfl, (C10_event_push [((0 : Nat), (10 : Nat))] 1 20).2.2 (by decide)
    [(0, 10), (1, 20)] rfl⟩

end SubSynth
